import Mathlib

/-!
Verification of the VRChat interpreter delivery pipeline.

Shallow embedding of the relevant code:
  - text splitting, truncation and pagination markers (osc_manager.py),
  - the token-bucket rate limiter and the send entry point (osc_manager.py),
  - the mute/unmute debounce coordinator (main.py),
  - the Qwen recognizer pause/resume and audio-frame ingestion
    (speech_recognizers/qwen_speech_recognizer.py).

Strings are modelled as lists of Unicode characters, Python string
slicing/find/rfind/strip are modelled explicitly, machine floats used only
for wall-clock times are modelled as rationals, and Python int arithmetic
as Lean Int.
-/

/-- MAX_LENGTH = 144, the VRChat chatbox limit (osc_manager.py). -/
def MAX_LENGTH : Nat := 144

/-- SENTENCE_ENDERS from osc_manager.py, in source order.  Each entry is a
Python string, hence a list of characters; the ellipsis entry has three. -/
def SENTENCE_ENDERS : List (List Char) :=
  [['.'], ['。'], ['！'], ['!'], ['？'], ['?'],
   ['…'], ['.', '.', '.'], ['‽'],
   ['，'], [','], ['；'], [';'],
   ['։'], ['؟'], ['،'],
   ['।'], ['॥'], ['።'], ['။'], ['།'],
   ['、'], ['‚'], ['٫']]

/-- Whitespace as recognized by Python str.strip / str.lstrip (the ASCII
whitespace characters, which are the only ones the pipeline produces). -/
def isPySpace (c : Char) : Bool :=
  c == ' ' || c == '\t' || c == '\n' || c == '\r' || c == '\x0b' || c == '\x0c'

/-- Python str.lstrip(). -/
def pyLstrip (l : List Char) : List Char := l.dropWhile isPySpace

/-- Python str.rstrip(). -/
def pyRstrip (l : List Char) : List Char := (l.reverse.dropWhile isPySpace).reverse

/-- Python str.strip(). -/
def pyStrip (l : List Char) : List Char := pyRstrip (pyLstrip l)

/-- The needle occurs in hay starting at position i. -/
def matchesAt (needle hay : List Char) (i : Nat) : Bool :=
  needle.isPrefixOf (hay.drop i)

/-- Scan upward from position i with the given fuel, returning the first
match position; fuel hay.length + 1 covers every start position. -/
def pyFindGo (needle hay : List Char) : Nat → Nat → Option Nat
  | _, 0 => none
  | i, fuel + 1 =>
    if matchesAt needle hay i then some i else pyFindGo needle hay (i + 1) fuel

/-- Python str.find, returning none instead of -1. -/
def pyFind (needle hay : List Char) : Option Nat :=
  pyFindGo needle hay 0 (hay.length + 1)

/-- Scan downward from position i, returning the last match position. -/
def pyRfindGo (needle hay : List Char) : Nat → Option Nat
  | 0 => if matchesAt needle hay 0 then some 0 else none
  | i + 1 =>
    if matchesAt needle hay (i + 1) then some (i + 1) else pyRfindGo needle hay i

/-- Python str.rfind, returning none instead of -1. -/
def pyRfind (needle hay : List Char) : Option Nat :=
  pyRfindGo needle hay hay.length

/-- Python slice l[:n] where n may be negative (counts from the end). -/
def pySliceTo (l : List Char) (n : Int) : List Char :=
  if n < 0 then l.take (l.length - n.natAbs) else l.take n.toNat

/-- One iteration of the ender loop of _split_text_into_pages: rfind the
ender and keep it when its position strictly beats the best so far (the
initial best is -1, so any found position beats an empty best). -/
def max_rfind_step (search : List Char) (best : Option Nat) (e : List Char) :
    Option Nat :=
  match pyRfind e search with
  | none => best
  | some p =>
    match best with
    | none => some p
    | some b => if b < p then some p else best

/-- The best split position in _split_text_into_pages. -/
def best_rfind (search : List Char) : Option Nat :=
  SENTENCE_ENDERS.foldl (max_rfind_step search) none

/-- One iteration of the ender loop of _truncate_text: find the ender and
keep it when its position strictly undercuts the best so far. -/
def min_find_step (text : List Char) (best : Option Nat) (e : List Char) :
    Option Nat :=
  match pyFind e text with
  | none => best
  | some p =>
    match best with
    | none => some p
    | some b => if p < b then some p else best

/-- The earliest sentence-end position in _truncate_text. -/
def first_ender_idx (text : List Char) : Option Nat :=
  SENTENCE_ENDERS.foldl (min_find_step text) none

/-- The cut width chosen by one iteration of the _split_text_into_pages
loop on the window of the first ml characters.  With no sentence ender the
code splits at the last space provided it keeps more than half the window
(last_space > max_length * MIN_SPLIT_RATIO with MIN_SPLIT_RATIO = 0.5,
exactly ml < 2 * last_space on integers), else hard-cuts at ml. -/
def split_cut (search : List Char) (ml : Nat) : Nat :=
  match best_rfind search with
  | some pos => pos + 1
  | none =>
    match pyRfind [' '] search with
    | some last_space => if ml < 2 * last_space then last_space else ml
    | none => ml

/-- The while-loop of _split_text_into_pages, with explicit fuel.  Fuel
text.length is always enough when 1 ≤ ml because every iteration removes
at least one character from the remaining text. -/
def splitGo (ml : Nat) : Nat → List Char → Option (List (List Char))
  | 0, remaining => if remaining.isEmpty then some [] else none
  | fuel + 1, remaining =>
    if remaining.isEmpty then some []
    else if remaining.length ≤ ml then some [remaining]
    else
      let cut := split_cut (remaining.take ml) ml
      (splitGo ml fuel (pyLstrip (remaining.drop cut))).map
        (fun ps => pyStrip (remaining.take cut) :: ps)

/-- OSCManager._split_text_into_pages. -/
def split_text_into_pages (text : List Char) (ml : Nat) : List (List Char) :=
  if text.length ≤ ml then [text]
  else (splitGo ml text.length text).getD []

/-- The while-loop of _truncate_text, with explicit fuel; fuel text.length
is always enough since every iteration drops at least one character. -/
def truncGo (ml : Nat) : Nat → List Char → List Char
  | 0, text => text
  | fuel + 1, text =>
    if text.length ≤ ml then text
    else
      match first_ender_idx text with
      | some idx => truncGo ml fuel (pyLstrip (text.drop (idx + 1)))
      | none => text.drop (text.length - ml)

/-- OSCManager._truncate_text. -/
def truncate_text (text : List Char) (ml : Nat) : List Char :=
  truncGo ml text.length text

/-- Decimal digit character. -/
def digitChar (d : Nat) : Char := Char.ofNat (48 + d)

/-- Decimal rendering of a natural number, with explicit fuel (one digit
is produced per fuel unit, so fuel n + 1 always suffices). -/
def natToDecGo : Nat → Nat → List Char
  | 0, _ => []
  | fuel + 1, n =>
    if n < 10 then [digitChar n] else natToDecGo fuel (n / 10) ++ [digitChar (n % 10)]

/-- Python str(n) for a natural number. -/
def natToDec (n : Nat) : List Char := natToDecGo (n + 1) n

/-- The page marker f-string from _send_paginated_text. -/
def page_marker (i total : Nat) : List Char :=
  '[' :: (natToDec i ++ '/' :: (natToDec total ++ [']', ' ']))

/-- The per-page wire text built by _send_paginated_text: prepend the
marker, and if the result exceeds MAX_LENGTH replace the page body by
page[:MAX_LENGTH - len(marker)] (a Python slice whose bound may be
negative). -/
def page_with_marker (page : List Char) (i total : Nat) : List Char :=
  let marker := page_marker i total
  let pm := marker ++ page
  if MAX_LENGTH < pm.length then
    marker ++ pySliceTo page ((MAX_LENGTH : Int) - (marker.length : Int))
  else pm

/-- The enumerate loop of _send_paginated_text: page i (1-based) of the
given total. -/
def withMarkersGo (total : Nat) : Nat → List (List Char) → List (List Char)
  | _, [] => []
  | i, p :: ps => page_with_marker p i total :: withMarkersGo total (i + 1) ps

/-- The sequence of wire texts produced by OSCManager._send_paginated_text. -/
def send_paginated_text (text : List Char) : List (List Char) :=
  let pages := split_text_into_pages text MAX_LENGTH
  withMarkersGo pages.length 1 pages

/-- Token-bucket state of OSCManager: _tokens (a Python int) and
_last_refill_time (wall-clock seconds, modelled as a rational). -/
structure Bucket where
  tokens : Int
  last : ℚ
deriving DecidableEq

/-- Python int() applied to a rational: truncation toward zero. -/
def pyInt (q : ℚ) : Int := if q < 0 then ⌈q⌉ else ⌊q⌋

/-- The tokens_to_add computed by OSCManager._refill_tokens: the elapsed
time divided by the interval, truncated to an int, capped at the headroom
left below the burst capacity. -/
def refill_add (interval : ℚ) (burst : Int) (b : Bucket) (now : ℚ) : Int :=
  min (pyInt ((now - b.last) / interval)) (burst - b.tokens)

/-- OSCManager._refill_tokens, parameterized by the configured
_rate_limit_interval and _rate_limit_burst, called at wall-clock time
now: add the tokens when at least one is due (advancing the refill time
by exactly the tokens granted), then clamp how far the refill time may
lag behind now. -/
def refill_tokens (interval : ℚ) (burst : Int) (b : Bucket) (now : ℚ) : Bucket :=
  let add := refill_add interval burst b now
  let b1 : Bucket :=
    if 1 ≤ add then ⟨b.tokens + add, b.last + (add : ℚ) * interval⟩ else b
  ⟨b1.tokens, max b1.last (now - interval * ((burst : ℚ) - (b1.tokens : ℚ)))⟩

/-- OSCManager._can_send: refill, then consume.  Without force_send the
consume fails when no token is available; with force_send the token count
is decremented unconditionally. -/
def can_send (interval : ℚ) (burst : Int) (b : Bucket) (now : ℚ)
    (force_send : Bool) : Bool × Bucket :=
  let b1 := refill_tokens interval burst b now
  if force_send = false ∧ b1.tokens ≤ 0 then (false, b1)
  else (true, ⟨b1.tokens - 1, b1.last⟩)

/-- The configured _rate_limit_interval (2 seconds). -/
def rl_interval : ℚ := 2

/-- The configured _rate_limit_burst (2 tokens). -/
def rl_burst : Int := 2

/-- Run a sequence of _can_send calls; each step carries the wall-clock
time of the call and its force_send flag. -/
def run_steps (interval : ℚ) (burst : Int) (b : Bucket)
    (steps : List (ℚ × Bool)) : Bucket :=
  steps.foldl (fun b s => (can_send interval burst b s.1 s.2).2) b

/-- Run a sequence of gated (force_send = false) _can_send calls separated
by the given elapsed times, counting successes. -/
def run_gated (interval : ℚ) (burst : Int) :
    Bucket → ℚ → List ℚ → Bucket × ℚ × Nat
  | b, now, [] => (b, now, 0)
  | b, now, e :: es =>
    let now1 := now + e
    let r := can_send interval burst b now1 false
    let rest := run_gated interval burst r.2 now1 es
    (rest.1, rest.2.1, (if r.1 = true then 1 else 0) + rest.2.2)

/-- The OSCManager state consulted by send_text: the pagination enable
flag and the token bucket. -/
structure OscState where
  enable_pagination : Bool
  bucket : Bucket
deriving DecidableEq

/-- What a send_text call puts on the wire: nothing (rate-limited drop), a
single chatbox message, or a paginated sequence of chatbox messages. -/
inductive Delivery where
  | dropped : Delivery
  | single : List Char → Bool → Delivery
  | paginated : List (List Char) → Delivery
deriving DecidableEq

/-- The chatbox text messages carried by a Delivery, each with its ongoing
flag (pages are always sent with ongoing = false). -/
def delivery_messages : Delivery → List (List Char × Bool)
  | Delivery.dropped => []
  | Delivery.single t og => [(t, og)]
  | Delivery.paginated msgs => msgs.map (fun m => (m, false))

/-- The shared tail of OSCManager.send_text: paginate when enabled, the
text exceeds MAX_LENGTH and the message is final; otherwise truncate and
send one message. -/
def send_text_body (st : OscState) (text : List Char) (ongoing : Bool) :
    Delivery × OscState :=
  if st.enable_pagination = true ∧ MAX_LENGTH < text.length ∧ ongoing = false then
    (Delivery.paginated (send_paginated_text text), st)
  else
    (Delivery.single (truncate_text text MAX_LENGTH) ongoing, st)

/-- OSCManager.send_text at wall-clock time now: ongoing messages first
pass through _can_send (not ongoing), and a failed consume drops the
update entirely. -/
def send_text (st : OscState) (now : ℚ) (text : List Char) (ongoing : Bool) :
    Delivery × OscState :=
  if ongoing = true then
    let r := can_send rl_interval rl_burst st.bucket now (!ongoing)
    if r.1 = false then (Delivery.dropped, { st with bucket := r.2 })
    else send_text_body { st with bucket := r.2 } text ongoing
  else send_text_body st text ongoing

/-- Backend calls issued by the mute coordinator in main.py
(stop_recognition_async / start_recognition_async). -/
inductive AsrAct where
  | stop : AsrAct
  | start : AsrAct
deriving DecidableEq

/-- The coordinator state of main.py: recognition_active, and whether a
scheduled delayed-stop task is outstanding (created and neither cancelled
nor finished). -/
structure CoordState where
  active : Bool
  pending : Bool
deriving DecidableEq

/-- stop_recognition_async: a no-op when recognition is not active, else
clears the active flag and stops/pauses the backend. -/
def stop_recognition (s : CoordState) : CoordState × List AsrAct :=
  if s.active = false then (s, [])
  else ({ s with active := false }, [AsrAct.stop])

/-- start_recognition_async: a no-op when recognition is already active,
else starts/resumes the backend and sets the active flag. -/
def start_recognition (s : CoordState) : CoordState × List AsrAct :=
  if s.active = true then (s, [])
  else ({ s with active := true }, [AsrAct.start])

/-- handle_mute_change in main.py, with delay_pos recording whether
MUTE_DELAY_SECONDS > 0.  A mute while active cancels any outstanding
delayed stop and either schedules a new one (positive delay) or stops
immediately; an unmute cancels any outstanding delayed stop and resumes
when not active. -/
def handle_mute_change (delay_pos : Bool) (s : CoordState) (is_muted : Bool) :
    CoordState × List AsrAct :=
  if is_muted = true then
    if s.active = true then
      let s1 : CoordState := { s with pending := false }
      if delay_pos = true then ({ s1 with pending := true }, [])
      else stop_recognition s1
    else (s, [])
  else
    let s1 : CoordState := { s with pending := false }
    if s1.active = false then start_recognition s1 else (s1, [])

/-- The body of delayed_stop in handle_mute_change, reached only when the
sleep completes without the task having been cancelled: it re-checks
recognition_active before stopping. -/
def delayed_stop_fires (s : CoordState) : CoordState × List AsrAct :=
  if s.pending = true then
    let s1 : CoordState := { s with pending := false }
    if s1.active = true then stop_recognition s1 else (s1, [])
  else (s, [])

/-- The QwenSpeechRecognizer state touched by send_audio_frame, pause and
resume: the paused flag, the open conversation (if any, identified by a
handle), and the session/metrics fields. -/
structure QwenState where
  paused : Bool
  conversation : Option Nat
  session_id : Option Nat
  last_response_id : Option Nat
  last_first_text_delay : Option Int
  last_first_audio_delay : Option Int
deriving DecidableEq

/-- Calls the recognizer makes on the backend conversation object. -/
inductive QwenAct where
  | append_audio : List Nat → QwenAct
deriving DecidableEq

/-- The RuntimeError raised by _require_conversation when no session is
open. -/
inductive QwenErr where
  | not_started : QwenErr
deriving DecidableEq

/-- QwenSpeechRecognizer.send_audio_frame: empty frames are ignored, a
paused recognizer ignores the frame, otherwise the frame is appended to
the required conversation (base64 encoding of the bytes is left out of
the model, the action carries the raw bytes). -/
def send_audio_frame (s : QwenState) (data : List Nat) :
    Except QwenErr (QwenState × List QwenAct) :=
  if data.isEmpty then Except.ok (s, [])
  else if s.paused = true then Except.ok (s, [])
  else
    match s.conversation with
    | none => Except.error QwenErr.not_started
    | some _ => Except.ok (s, [QwenAct.append_audio data])

/-- QwenSpeechRecognizer.resume: clears the paused flag, nothing else. -/
def resume (s : QwenState) : QwenState × List QwenAct :=
  ({ s with paused := false }, [])

/-- Characters that are not whitespace (the content preserved by the
reconstructibility property). -/
def nonspace (c : Char) : Bool := !(isPySpace c)

theorem pyLstrip_sublist (l : List Char) : List.Sublist (pyLstrip l) l :=
  List.dropWhile_sublist isPySpace

theorem pyLstrip_length_le (l : List Char) : (pyLstrip l).length ≤ l.length :=
  (pyLstrip_sublist l).length_le

theorem pyRstrip_sublist (l : List Char) : List.Sublist (pyRstrip l) l := by
  have h := (List.dropWhile_sublist (l := l.reverse) isPySpace).reverse
  simpa [pyRstrip] using h

theorem pyStrip_sublist (l : List Char) : List.Sublist (pyStrip l) l :=
  (pyRstrip_sublist (pyLstrip l)).trans (pyLstrip_sublist l)

theorem filter_dropWhile_space (l : List Char) :
    (l.dropWhile isPySpace).filter nonspace = l.filter nonspace := by
  induction l with
  | nil => rfl
  | cons a l ih =>
    by_cases h : isPySpace a = true
    · simp [List.dropWhile_cons, h, List.filter_cons, nonspace, ih]
    · simp [List.dropWhile_cons, h]

theorem filter_pyLstrip (l : List Char) :
    (pyLstrip l).filter nonspace = l.filter nonspace :=
  filter_dropWhile_space l

theorem filter_pyRstrip (l : List Char) :
    (pyRstrip l).filter nonspace = l.filter nonspace := by
  have h := filter_dropWhile_space l.reverse
  calc (pyRstrip l).filter nonspace
      = ((l.reverse.dropWhile isPySpace).filter nonspace).reverse := by
        simp [pyRstrip]
    _ = ((l.reverse.filter nonspace)).reverse := by rw [h]
    _ = l.filter nonspace := by simp

theorem filter_pyStrip (l : List Char) :
    (pyStrip l).filter nonspace = l.filter nonspace := by
  rw [pyStrip, filter_pyRstrip, filter_pyLstrip]

theorem split_cut_pos (search : List Char) (ml : Nat) (hml : 1 ≤ ml) :
    1 ≤ split_cut search ml := by
  unfold split_cut
  split
  · omega
  · split
    · split
      · omega
      · exact hml
    · exact hml

theorem splitGo_isSome (ml : Nat) (hml : 1 ≤ ml) :
    ∀ fuel remaining, remaining.length ≤ fuel →
      (splitGo ml fuel remaining).isSome = true := by
  intro fuel
  induction fuel with
  | zero =>
    intro r h
    have hr : r = [] := List.eq_nil_of_length_eq_zero (Nat.le_zero.mp h)
    subst hr
    simp [splitGo]
  | succ f ih =>
    intro r h
    by_cases hr : r.isEmpty
    · simp [splitGo, hr]
    · by_cases hlen : r.length ≤ ml
      · simp [splitGo, hr, hlen]
      · have hcut : 1 ≤ split_cut (r.take ml) ml := split_cut_pos _ _ hml
        have hrec : (pyLstrip (r.drop (split_cut (r.take ml) ml))).length ≤ f := by
          have h1 := pyLstrip_length_le (r.drop (split_cut (r.take ml) ml))
          have h2 : (r.drop (split_cut (r.take ml) ml)).length
              = r.length - split_cut (r.take ml) ml := List.length_drop _ _
          have h3 : 1 ≤ r.length := by omega
          omega
        simp only [splitGo, hr, hlen, if_false, Bool.false_eq_true]
        rw [Option.isSome_map']
        exact ih _ hrec

theorem splitGo_reconstruct (ml : Nat) :
    ∀ fuel remaining ps, splitGo ml fuel remaining = some ps →
      List.Sublist ps.flatten remaining ∧
      ps.flatten.filter nonspace = remaining.filter nonspace := by
  intro fuel
  induction fuel with
  | zero =>
    intro r ps h
    by_cases hr : r.isEmpty
    · have hr' : r = [] := List.isEmpty_iff.mp hr
      subst hr'
      simp [splitGo] at h
      subst h
      simp
    · simp [splitGo, hr] at h
  | succ f ih =>
    intro r ps h
    by_cases hr : r.isEmpty
    · have hr' : r = [] := List.isEmpty_iff.mp hr
      subst hr'
      simp [splitGo] at h
      subst h
      simp
    · by_cases hlen : r.length ≤ ml
      · simp [splitGo, hr, hlen] at h
        subst h
        simp [List.Sublist.refl]
      · simp only [splitGo, hr, hlen, if_false, Bool.false_eq_true, Option.map_eq_some'] at h
        obtain ⟨ps', hps', hcons⟩ := h
        subst hcons
        set cut := split_cut (r.take ml) ml with hcutdef
        obtain ⟨hsub, hfil⟩ := ih _ _ hps'
        constructor
        · have h1 : List.Sublist (pyStrip (r.take cut)) (r.take cut) := pyStrip_sublist _
          have h2 : List.Sublist ps'.flatten (r.drop cut) :=
            hsub.trans (pyLstrip_sublist _)
          have h3 := List.Sublist.append h1 h2
          simpa [List.take_append_drop] using h3
        · have h1 : (pyStrip (r.take cut)).filter nonspace
              = (r.take cut).filter nonspace := filter_pyStrip _
          have h2 : ps'.flatten.filter nonspace = (r.drop cut).filter nonspace := by
            rw [hfil, filter_pyLstrip]
          calc ((pyStrip (r.take cut) :: ps').flatten).filter nonspace
              = (pyStrip (r.take cut)).filter nonspace
                ++ ps'.flatten.filter nonspace := by
                simp [List.filter_append]
            _ = (r.take cut).filter nonspace ++ (r.drop cut).filter nonspace := by
                rw [h1, h2]
            _ = r.filter nonspace := by
                rw [← List.filter_append, List.take_append_drop]

theorem truncGo_fits (ml fuel : Nat) (text : List Char) (h : text.length ≤ ml) :
    truncGo ml fuel text = text := by
  cases fuel with
  | zero => rfl
  | succ f => simp [truncGo, h]

theorem truncGo_length_le (ml : Nat) :
    ∀ fuel text, text.length ≤ fuel → (truncGo ml fuel text).length ≤ ml := by
  intro fuel
  induction fuel with
  | zero =>
    intro t h
    have ht : t = [] := List.eq_nil_of_length_eq_zero (Nat.le_zero.mp h)
    subst ht
    simp [truncGo]
  | succ f ih =>
    intro t h
    by_cases hlen : t.length ≤ ml
    · rw [truncGo_fits _ _ _ hlen]; exact hlen
    · cases hfe : first_ender_idx t with
      | some idx =>
        have hstep : truncGo ml (f + 1) t
            = truncGo ml f (pyLstrip (t.drop (idx + 1))) := by
          simp [truncGo, hlen, hfe]
        rw [hstep]
        apply ih
        have h1 := pyLstrip_length_le (t.drop (idx + 1))
        have h2 := List.length_drop (idx + 1) t
        omega
      | none =>
        have hstep : truncGo ml (f + 1) t = t.drop (t.length - ml) := by
          simp [truncGo, hlen, hfe]
        rw [hstep, List.length_drop]
        omega

theorem truncGo_fuel_inv (ml : Nat) :
    ∀ f1 f2 text, text.length ≤ f1 → text.length ≤ f2 →
      truncGo ml f1 text = truncGo ml f2 text := by
  intro f1
  induction f1 with
  | zero =>
    intro f2 t h1 h2
    have ht : t = [] := List.eq_nil_of_length_eq_zero (Nat.le_zero.mp h1)
    subst ht
    rw [truncGo_fits _ _ _ (by simp), truncGo_fits _ _ _ (by simp)]
  | succ f ih =>
    intro f2 t h1 h2
    by_cases hlen : t.length ≤ ml
    · rw [truncGo_fits _ _ _ hlen, truncGo_fits _ _ _ hlen]
    · cases f2 with
      | zero => omega
      | succ f2' =>
        cases hfe : first_ender_idx t with
        | some idx =>
          have e1 : truncGo ml (f + 1) t
              = truncGo ml f (pyLstrip (t.drop (idx + 1))) := by
            simp [truncGo, hlen, hfe]
          have e2 : truncGo ml (f2' + 1) t
              = truncGo ml f2' (pyLstrip (t.drop (idx + 1))) := by
            simp [truncGo, hlen, hfe]
          have hb : (pyLstrip (t.drop (idx + 1))).length ≤ t.length - 1 := by
            have hx := pyLstrip_length_le (t.drop (idx + 1))
            have hy := List.length_drop (idx + 1) t
            omega
          rw [e1, e2]
          exact ih f2' _ (by omega) (by omega)
        | none =>
          simp [truncGo, hlen, hfe]

theorem truncate_text_fits (text : List Char) (ml : Nat) (h : text.length ≤ ml) :
    truncate_text text ml = text :=
  truncGo_fits ml text.length text h

theorem truncate_text_length_le (text : List Char) (ml : Nat) :
    (truncate_text text ml).length ≤ ml :=
  truncGo_length_le ml text.length text le_rfl

theorem truncate_text_step (text : List Char) (ml idx : Nat)
    (hlen : ml < text.length) (hfe : first_ender_idx text = some idx) :
    truncate_text text ml = truncate_text (pyLstrip (text.drop (idx + 1))) ml := by
  have hL : ∃ L, text.length = L + 1 := ⟨text.length - 1, by omega⟩
  obtain ⟨L, hLeq⟩ := hL
  have hlen' : ¬ text.length ≤ ml := by omega
  have e1 : truncate_text text ml = truncGo ml L (pyLstrip (text.drop (idx + 1))) := by
    rw [truncate_text, hLeq]
    simp [truncGo, hlen', hfe]
  have hb : (pyLstrip (text.drop (idx + 1))).length ≤ L := by
    have hx := pyLstrip_length_le (text.drop (idx + 1))
    have hy := List.length_drop (idx + 1) text
    omega
  rw [e1, truncate_text]
  exact truncGo_fuel_inv ml L _ _ hb le_rfl

theorem truncate_text_noender (text : List Char) (ml : Nat)
    (hlen : ml < text.length) (hfe : first_ender_idx text = none) :
    truncate_text text ml = text.drop (text.length - ml) := by
  have hL : ∃ L, text.length = L + 1 := ⟨text.length - 1, by omega⟩
  obtain ⟨L, hLeq⟩ := hL
  have hlen' : ¬ text.length ≤ ml := by omega
  rw [truncate_text, hLeq]
  simp [truncGo, hlen', hfe, hLeq.symm]

/-- Some sentence ender occurs in text at position i. -/
def matches_some_ender (text : List Char) (i : Nat) : Bool :=
  SENTENCE_ENDERS.any (fun e => matchesAt e text i)

theorem pyFindGo_some_spec (needle hay : List Char) :
    ∀ fuel i p, pyFindGo needle hay i fuel = some p →
      i ≤ p ∧ matchesAt needle hay p = true ∧
      ∀ j, i ≤ j → j < p → matchesAt needle hay j = false := by
  intro fuel
  induction fuel with
  | zero => intro i p h; simp [pyFindGo] at h
  | succ f ih =>
    intro i p h
    by_cases hm : matchesAt needle hay i = true
    · simp [pyFindGo, hm] at h
      subst h
      exact ⟨le_rfl, hm, fun j h1 h2 => absurd h2 (by omega)⟩
    · simp only [pyFindGo, hm, if_false, Bool.false_eq_true] at h
      obtain ⟨h1, h2, h3⟩ := ih (i + 1) p h
      refine ⟨by omega, h2, fun j hj1 hj2 => ?_⟩
      by_cases hji : j = i
      · subst hji; exact Bool.eq_false_iff.mpr hm
      · exact h3 j (by omega) hj2

theorem pyFindGo_none_spec (needle hay : List Char) :
    ∀ fuel i, pyFindGo needle hay i fuel = none →
      ∀ j, i ≤ j → j < i + fuel → matchesAt needle hay j = false := by
  intro fuel
  induction fuel with
  | zero => intro i h j h1 h2; omega
  | succ f ih =>
    intro i h j h1 h2
    by_cases hm : matchesAt needle hay i = true
    · simp [pyFindGo, hm] at h
    · simp only [pyFindGo, hm, if_false, Bool.false_eq_true] at h
      by_cases hji : j = i
      · subst hji; exact Bool.eq_false_iff.mpr hm
      · exact ih (i + 1) h j (by omega) (by omega)

theorem matchesAt_oob (needle hay : List Char) (hne : needle ≠ []) (j : Nat)
    (hj : hay.length ≤ j) : matchesAt needle hay j = false := by
  unfold matchesAt
  rw [List.drop_eq_nil_of_le hj]
  cases needle with
  | nil => exact absurd rfl hne
  | cons c cs => rfl

theorem pyFind_none_spec (needle hay : List Char) (h : pyFind needle hay = none) :
    ∀ j, matchesAt needle hay j = false := by
  have hne : needle ≠ [] := by
    intro he
    subst he
    have : matchesAt [] hay 0 = true := by simp [matchesAt, List.isPrefixOf]
    unfold pyFind at h
    simp [pyFindGo, this] at h
  intro j
  by_cases hj : j < hay.length + 1
  · exact pyFindGo_none_spec needle hay _ 0 h j (Nat.zero_le _) (by omega)
  · exact matchesAt_oob needle hay hne j (by omega)

theorem pyFind_some_spec (needle hay : List Char) (p : Nat)
    (h : pyFind needle hay = some p) :
    matchesAt needle hay p = true ∧ ∀ j, j < p → matchesAt needle hay j = false := by
  obtain ⟨-, hm, hmin⟩ := pyFindGo_some_spec needle hay _ 0 p h
  exact ⟨hm, fun j hj => hmin j (Nat.zero_le _) hj⟩

theorem min_find_step_none_iff (text : List Char) (acc : Option Nat) (e : List Char) :
    min_find_step text acc e = none ↔ acc = none ∧ pyFind e text = none := by
  unfold min_find_step
  cases hpe : pyFind e text with
  | none => simp
  | some p =>
    cases acc with
    | none => simp
    | some b =>
      by_cases hc : p < b
      · simp [hc]
      · simp [hc]

theorem min_find_step_some_spec (text : List Char) (acc : Option Nat)
    (e : List Char) (m : Nat) (h : min_find_step text acc e = some m) :
    (acc = some m ∨ pyFind e text = some m) ∧
    (∀ b, acc = some b → m ≤ b) ∧
    (∀ p, pyFind e text = some p → m ≤ p) := by
  cases hpe : pyFind e text with
  | none =>
    simp only [min_find_step, hpe] at h
    refine ⟨Or.inl h, fun b hb => ?_, fun p hp => Option.noConfusion hp⟩
    rw [h] at hb
    injection hb with hmb
    omega
  | some p =>
    cases hacc : acc with
    | none =>
      simp only [min_find_step, hpe, hacc] at h
      injection h with hpm
      subst hpm
      refine ⟨Or.inr rfl, fun b hb => Option.noConfusion hb, fun q hq => ?_⟩
      injection hq with hq
      omega
    | some b =>
      simp only [min_find_step, hpe, hacc] at h
      by_cases hc : p < b
      · rw [if_pos hc] at h
        injection h with hpm
        subst hpm
        refine ⟨Or.inr rfl, fun b2 hb2 => ?_, fun q hq => ?_⟩
        · injection hb2 with hb2
          omega
        · injection hq with hq
          omega
      · rw [if_neg hc] at h
        injection h with hbm
        subst hbm
        refine ⟨Or.inl rfl, fun b2 hb2 => ?_, fun q hq => ?_⟩
        · injection hb2 with hb2
          omega
        · injection hq with hq
          omega

theorem min_find_fold_spec (text : List Char) :
    ∀ (L : List (List Char)) (acc : Option Nat),
      (L.foldl (min_find_step text) acc = none →
        acc = none ∧ ∀ e ∈ L, pyFind e text = none) ∧
      (∀ m, L.foldl (min_find_step text) acc = some m →
        (acc = some m ∨ ∃ e ∈ L, pyFind e text = some m) ∧
        (∀ b, acc = some b → m ≤ b) ∧
        (∀ e ∈ L, ∀ p, pyFind e text = some p → m ≤ p)) := by
  intro L
  induction L with
  | nil =>
    intro acc
    constructor
    · intro h
      exact ⟨h, by simp⟩
    · intro m h
      simp only [List.foldl_nil] at h
      refine ⟨Or.inl h, fun b hb => ?_, by simp⟩
      rw [h] at hb
      injection hb with hmb
      omega
  | cons e L ih =>
    intro acc
    constructor
    · intro h
      obtain ⟨hstep, hrest⟩ := (ih (min_find_step text acc e)).1 h
      obtain ⟨hacc, hpe⟩ := (min_find_step_none_iff text acc e).mp hstep
      refine ⟨hacc, fun e' he' => ?_⟩
      rcases List.mem_cons.mp he' with h1 | h2
      · subst h1; exact hpe
      · exact hrest e' h2
    · intro m h
      obtain ⟨hsrc, haccmin, hallmin⟩ := (ih (min_find_step text acc e)).2 m h
      constructor
      · rcases hsrc with hs | ⟨e', he', hpe'⟩
        · rcases (min_find_step_some_spec text acc e m hs).1 with h1 | h2
          · exact Or.inl h1
          · exact Or.inr ⟨e, List.mem_cons_self e L, h2⟩
        · exact Or.inr ⟨e', List.mem_cons_of_mem e he', hpe'⟩
      constructor
      · intro b hb
        cases hstep : min_find_step text acc e with
        | none =>
          obtain ⟨hacc, -⟩ := (min_find_step_none_iff text acc e).mp hstep
          rw [hacc] at hb
          exact absurd hb (by simp)
        | some b' =>
          have hmb' : m ≤ b' := haccmin b' hstep
          have hb'b : b' ≤ b := (min_find_step_some_spec text acc e b' hstep).2.1 b hb
          omega
      · intro e' he' p hpe'
        rcases List.mem_cons.mp he' with h1 | h2
        · subst h1
          cases hstep : min_find_step text acc e' with
          | none =>
            obtain ⟨-, hnone⟩ := (min_find_step_none_iff text acc e').mp hstep
            rw [hnone] at hpe'
            exact absurd hpe' (by simp)
          | some b' =>
            have hmb' : m ≤ b' := haccmin b' hstep
            have hb'p : b' ≤ p := (min_find_step_some_spec text acc e' b' hstep).2.2 p hpe'
            omega
        · exact hallmin e' h2 p hpe'

theorem first_ender_idx_none_spec (text : List Char)
    (h : first_ender_idx text = none) :
    ∀ j, matches_some_ender text j = false := by
  obtain ⟨-, hall⟩ := (min_find_fold_spec text SENTENCE_ENDERS none).1 h
  intro j
  rw [matches_some_ender]
  rw [List.any_eq_false]
  intro e he
  have hm := pyFind_none_spec e text (hall e he) j
  simp [hm]

theorem first_ender_idx_some_spec (text : List Char) (m : Nat)
    (h : first_ender_idx text = some m) :
    matches_some_ender text m = true ∧
    ∀ j, j < m → matches_some_ender text j = false := by
  obtain ⟨hsrc, -, hmin⟩ := (min_find_fold_spec text SENTENCE_ENDERS none).2 m h
  rcases hsrc with hs | ⟨e, he, hpe⟩
  · exact absurd hs (by simp)
  · constructor
    · rw [matches_some_ender, List.any_eq_true]
      exact ⟨e, he, (pyFind_some_spec e text m hpe).1⟩
    · intro j hj
      rw [matches_some_ender, List.any_eq_false]
      intro e' he'
      simp only [Bool.not_eq_true]
      cases hpe' : pyFind e' text with
      | none => exact pyFind_none_spec e' text hpe' j
      | some p =>
        obtain ⟨-, hminp⟩ := pyFind_some_spec e' text p hpe'
        have hmp : m ≤ p := hmin e' he' p hpe'
        exact hminp j (by omega)

/-- C5: truncate_text returns text unchanged when it fits; otherwise it
repeatedly deletes everything up to and including the earliest occurrence
of any sentence-ending mark (plus the leading whitespace of the
remainder) until the remainder fits, keeps exactly the last ml characters
when the remainder has no sentence-ending mark, and always returns a
result of length at most ml. -/
theorem c5_truncate_leading (text : List Char) (ml : Nat) :
    (text.length ≤ ml → truncate_text text ml = text) ∧
    (truncate_text text ml).length ≤ ml ∧
    (ml < text.length → first_ender_idx text = none →
      truncate_text text ml = text.drop (text.length - ml)) ∧
    (∀ idx, ml < text.length → first_ender_idx text = some idx →
      matches_some_ender text idx = true ∧
      (∀ j, j < idx → matches_some_ender text j = false) ∧
      truncate_text text ml = truncate_text (pyLstrip (text.drop (idx + 1))) ml) := by
  refine ⟨truncate_text_fits text ml, truncate_text_length_le text ml,
    truncate_text_noender text ml, ?_⟩
  intro idx hlen hfe
  obtain ⟨h1, h2⟩ := first_ender_idx_some_spec text idx hfe
  exact ⟨h1, h2, truncate_text_step text ml idx hlen hfe⟩

/-- Witness for C5 at the concrete input "ab.cdef" with ml = 3: the first
sentence ender sits at index 2, and one truncation step deletes through
it. -/
theorem c5_truncate_leading_witness :
    matches_some_ender ['a', 'b', '.', 'c', 'd', 'e', 'f'] 2 = true ∧
    truncate_text ['a', 'b', '.', 'c', 'd', 'e', 'f'] 3
      = truncate_text (pyLstrip ((['a', 'b', '.', 'c', 'd', 'e', 'f']).drop (2 + 1))) 3 := by
  have h := (c5_truncate_leading ['a', 'b', '.', 'c', 'd', 'e', 'f'] 3).2.2.2 2
    (by decide) (by decide)
  exact ⟨h.1, h.2.2⟩

/-- C8: truncate_text is idempotent, because its result always fits and a
fitting text is returned unchanged. -/
theorem c8_truncate_idempotent (text : List Char) (ml : Nat) :
    truncate_text (truncate_text text ml) ml = truncate_text text ml :=
  truncate_text_fits _ _ (truncate_text_length_le text ml)

/-- C7: concatenating the pages of split_text_into_pages (before markers
are injected) gives back the input up to whitespace dropped at the cut
points: the concatenation embeds in the input as a sublist (so no
character is introduced or reordered) and carries exactly the input's
non-whitespace characters in order. -/
theorem c7_pagination_reconstruct (text : List Char) (ml : Nat) (hml : 1 ≤ ml) :
    List.Sublist ((split_text_into_pages text ml).flatten) text ∧
    ((split_text_into_pages text ml).flatten).filter nonspace
      = text.filter nonspace := by
  by_cases h : text.length ≤ ml
  · rw [split_text_into_pages, if_pos h]
    simp
  · rw [split_text_into_pages, if_neg h]
    have hs := splitGo_isSome ml hml text.length text le_rfl
    obtain ⟨ps, hps⟩ := Option.isSome_iff_exists.mp hs
    rw [hps]
    simpa using splitGo_reconstruct ml text.length text ps hps

/-- Witness for C7 at the concrete input "hi. you" with ml = 4. -/
theorem c7_pagination_reconstruct_witness :
    1 ≤ 4 ∧
    (List.Sublist ((split_text_into_pages ['h', 'i', '.', ' ', 'y', 'o', 'u'] 4).flatten)
        ['h', 'i', '.', ' ', 'y', 'o', 'u'] ∧
     ((split_text_into_pages ['h', 'i', '.', ' ', 'y', 'o', 'u'] 4).flatten).filter nonspace
        = (['h', 'i', '.', ' ', 'y', 'o', 'u']).filter nonspace) :=
  ⟨by decide, c7_pagination_reconstruct ['h', 'i', '.', ' ', 'y', 'o', 'u'] 4 (by decide)⟩

/-- C10: the pagination loop terminates for every input once ml ≥ 1: with
fuel equal to the input length the loop always completes, because every
iteration cuts at least one character off the remaining text. -/
theorem c10_split_terminates (text : List Char) (ml : Nat) (hml : 1 ≤ ml) :
    (splitGo ml text.length text).isSome = true :=
  splitGo_isSome ml hml text.length text le_rfl

/-- Witness for C10 at the concrete input "abcde" with ml = 2. -/
theorem c10_split_terminates_witness :
    1 ≤ 2 ∧ (splitGo 2 (['a', 'b', 'c', 'd', 'e']).length ['a', 'b', 'c', 'd', 'e']).isSome = true :=
  ⟨by decide, c10_split_terminates ['a', 'b', 'c', 'd', 'e'] 2 (by decide)⟩

theorem pyInt_of_nonneg (q : ℚ) (h : 0 ≤ q) : pyInt q = ⌊q⌋ := by
  rw [pyInt, if_neg (not_lt.mpr h)]

theorem one_le_pyInt_imp (q : ℚ) (h : 1 ≤ pyInt q) : 0 ≤ q ∧ (pyInt q : ℚ) ≤ q := by
  by_cases hq : q < 0
  · exfalso
    rw [pyInt, if_pos hq] at h
    have : ⌈q⌉ ≤ 0 := Int.ceil_le.mpr (by exact_mod_cast le_of_lt hq)
    omega
  · have hq' : 0 ≤ q := not_lt.mp hq
    rw [pyInt_of_nonneg q hq'] at h ⊢
    exact ⟨hq', Int.floor_le q⟩

theorem refill_pos_eq (I : ℚ) (B : Int) (b : Bucket) (now : ℚ)
    (h : 1 ≤ refill_add I B b now) :
    refill_tokens I B b now =
      ⟨b.tokens + refill_add I B b now,
       max (b.last + (refill_add I B b now : ℚ) * I)
         (now - I * ((B : ℚ) - ((b.tokens + refill_add I B b now : Int) : ℚ)))⟩ := by
  simp [refill_tokens, h]

theorem refill_neg_eq (I : ℚ) (B : Int) (b : Bucket) (now : ℚ)
    (h : ¬ 1 ≤ refill_add I B b now) :
    refill_tokens I B b now =
      ⟨b.tokens, max b.last (now - I * ((B : ℚ) - (b.tokens : ℚ)))⟩ := by
  simp [refill_tokens, h]

theorem refill_tokens_nonneg (I : ℚ) (B : Int) (b : Bucket) (now : ℚ)
    (h0 : 0 ≤ b.tokens) : 0 ≤ (refill_tokens I B b now).tokens := by
  by_cases h : 1 ≤ refill_add I B b now
  · rw [refill_pos_eq I B b now h]
    simp only
    omega
  · rw [refill_neg_eq I B b now h]
    exact h0

theorem refill_tokens_le_burst (I : ℚ) (B : Int) (b : Bucket) (now : ℚ)
    (hB : b.tokens ≤ B) : (refill_tokens I B b now).tokens ≤ B := by
  by_cases h : 1 ≤ refill_add I B b now
  · rw [refill_pos_eq I B b now h]
    simp only
    have hle : refill_add I B b now ≤ B - b.tokens := min_le_right _ _
    omega
  · rw [refill_neg_eq I B b now h]
    exact hB

theorem refill_tokens_last_le (I : ℚ) (B : Int) (b : Bucket) (now : ℚ)
    (hI : 0 < I) (hB : b.tokens ≤ B) (hlast : b.last ≤ now) :
    (refill_tokens I B b now).last ≤ now := by
  have htok_le : (refill_tokens I B b now).tokens ≤ B := refill_tokens_le_burst I B b now hB
  by_cases h : 1 ≤ refill_add I B b now
  · rw [refill_pos_eq I B b now h] at htok_le ⊢
    simp only at htok_le ⊢
    apply max_le
    · have h1 : refill_add I B b now ≤ pyInt ((now - b.last) / I) := min_le_left _ _
      have h2 : 1 ≤ pyInt ((now - b.last) / I) := le_trans h h1
      obtain ⟨hq0, hqle⟩ := one_le_pyInt_imp _ h2
      have h3 : (refill_add I B b now : ℚ) ≤ (now - b.last) / I := by
        calc (refill_add I B b now : ℚ) ≤ (pyInt ((now - b.last) / I) : ℚ) := by
              exact_mod_cast h1
          _ ≤ (now - b.last) / I := hqle
      have h4 : (refill_add I B b now : ℚ) * I ≤ now - b.last := by
        have := mul_le_mul_of_nonneg_right h3 (le_of_lt hI)
        rwa [div_mul_cancel₀ _ (ne_of_gt hI)] at this
      linarith
    · have h5 : (0 : ℚ) ≤ (B : ℚ) - ((b.tokens + refill_add I B b now : Int) : ℚ) := by
        have : ((b.tokens + refill_add I B b now : Int) : ℚ) ≤ (B : ℚ) := by
          exact_mod_cast htok_le
        linarith
      nlinarith
  · rw [refill_neg_eq I B b now h] at htok_le ⊢
    simp only at htok_le ⊢
    apply max_le hlast
    have h5 : (0 : ℚ) ≤ (B : ℚ) - (b.tokens : ℚ) := by
      have : (b.tokens : ℚ) ≤ (B : ℚ) := by exact_mod_cast hB
      linarith
    nlinarith

theorem refill_tokens_potential (I : ℚ) (B : Int) (b : Bucket) (now T : ℚ)
    (hI : 0 < I) :
    (refill_tokens I B b now).tokens + ⌊(T - (refill_tokens I B b now).last) / I⌋
      ≤ b.tokens + ⌊(T - b.last) / I⌋ := by
  by_cases h : 1 ≤ refill_add I B b now
  · rw [refill_pos_eq I B b now h]
    simp only
    set a := refill_add I B b now with ha
    have hmax : b.last + (a : ℚ) * I
        ≤ max (b.last + (a : ℚ) * I) (now - I * ((B : ℚ) - ((b.tokens + a : Int) : ℚ))) :=
      le_max_left _ _
    have hmono : ⌊(T - max (b.last + (a : ℚ) * I)
          (now - I * ((B : ℚ) - ((b.tokens + a : Int) : ℚ)))) / I⌋
        ≤ ⌊(T - (b.last + (a : ℚ) * I)) / I⌋ := by
      apply Int.floor_mono
      apply (div_le_div_iff_of_pos_right hI).mpr
      linarith
    have heq : ⌊(T - (b.last + (a : ℚ) * I)) / I⌋ = ⌊(T - b.last) / I⌋ - a := by
      have hrw : (T - (b.last + (a : ℚ) * I)) / I = (T - b.last) / I - (a : ℚ) := by
        field_simp
        ring
      rw [hrw]
      exact_mod_cast Int.floor_sub_int ((T - b.last) / I) a
    omega
  · rw [refill_neg_eq I B b now h]
    simp only
    have hmax : b.last ≤ max b.last (now - I * ((B : ℚ) - (b.tokens : ℚ))) := le_max_left _ _
    have hmono : ⌊(T - max b.last (now - I * ((B : ℚ) - (b.tokens : ℚ)))) / I⌋
        ≤ ⌊(T - b.last) / I⌋ := by
      apply Int.floor_mono
      apply (div_le_div_iff_of_pos_right hI).mpr
      linarith
    omega

theorem can_send_fail_eq (I : ℚ) (B : Int) (b : Bucket) (now : ℚ)
    (h : (refill_tokens I B b now).tokens ≤ 0) :
    can_send I B b now false = (false, refill_tokens I B b now) := by
  simp [can_send, h]

theorem can_send_succ_eq (I : ℚ) (B : Int) (b : Bucket) (now : ℚ)
    (h : ¬ (refill_tokens I B b now).tokens ≤ 0) :
    can_send I B b now false
      = (true, ⟨(refill_tokens I B b now).tokens - 1, (refill_tokens I B b now).last⟩) := by
  simp [can_send, h]

theorem can_send_force_true (I : ℚ) (B : Int) (b : Bucket) (now : ℚ) :
    (can_send I B b now true).1 = true := by
  simp [can_send]

theorem run_gated_count_le (I : ℚ) (B : Int) (hI : 0 < I) :
    ∀ (gaps : List ℚ) (b : Bucket) (now : ℚ),
      (∀ e ∈ gaps, 0 ≤ e) → 0 ≤ b.tokens → b.tokens ≤ B → b.last ≤ now →
      ((run_gated I B b now gaps).2.2 : Int)
        ≤ b.tokens + ⌊(now + gaps.sum - b.last) / I⌋ := by
  intro gaps
  induction gaps with
  | nil =>
    intro b now hg h0 hB hl
    simp only [run_gated, List.sum_nil, add_zero, Nat.cast_zero]
    have h1 : (0 : ℚ) ≤ (now - b.last) / I := div_nonneg (by linarith) (le_of_lt hI)
    have h2 : (0 : Int) ≤ ⌊(now - b.last) / I⌋ := Int.floor_nonneg.mpr h1
    omega
  | cons e es ih =>
    intro b now hg h0 hB hl
    have he : 0 ≤ e := hg e (List.mem_cons_self e es)
    have hg' : ∀ x ∈ es, 0 ≤ x := fun x hx => hg x (List.mem_cons_of_mem e hx)
    have hnow1 : b.last ≤ now + e := by linarith
    have ht1nn : 0 ≤ (refill_tokens I B b (now + e)).tokens :=
      refill_tokens_nonneg I B b _ h0
    have ht1le : (refill_tokens I B b (now + e)).tokens ≤ B :=
      refill_tokens_le_burst I B b _ hB
    have hl1 : (refill_tokens I B b (now + e)).last ≤ now + e :=
      refill_tokens_last_le I B b _ hI hB hnow1
    have hpot := refill_tokens_potential I B b (now + e) (now + e + es.sum) hI
    have harr : now + (e + es.sum) - b.last = now + e + es.sum - b.last := by ring
    by_cases hcs : (refill_tokens I B b (now + e)).tokens ≤ 0
    · have hstep := can_send_fail_eq I B b (now + e) hcs
      have hrec := ih (refill_tokens I B b (now + e)) (now + e) hg' ht1nn ht1le hl1
      simp only [run_gated, hstep, List.sum_cons, if_neg (by simp : ¬ false = true)]
      push_cast
      rw [harr]
      omega
    · have hstep := can_send_succ_eq I B b (now + e) hcs
      have hrec := ih ⟨(refill_tokens I B b (now + e)).tokens - 1,
          (refill_tokens I B b (now + e)).last⟩ (now + e) hg' (by simp only; omega)
          (by simp only; omega) hl1
      simp only [run_gated, hstep, List.sum_cons, if_pos rfl]
      push_cast
      rw [harr]
      simp only at hrec
      omega

theorem can_send_bounds (I : ℚ) (B : Int) (b : Bucket) (now : ℚ)
    (h0 : 0 ≤ b.tokens) (hB : b.tokens ≤ B) :
    0 ≤ (can_send I B b now false).2.tokens ∧ (can_send I B b now false).2.tokens ≤ B := by
  by_cases hcs : (refill_tokens I B b now).tokens ≤ 0
  · rw [can_send_fail_eq I B b now hcs]
    exact ⟨refill_tokens_nonneg I B b now h0, refill_tokens_le_burst I B b now hB⟩
  · rw [can_send_succ_eq I B b now hcs]
    have h1 := refill_tokens_le_burst I B b now hB
    constructor
    · simp only
      omega
    · simp only
      omega

theorem run_steps_bounds (I : ℚ) (B : Int) :
    ∀ (steps : List (ℚ × Bool)) (b : Bucket),
      (∀ s ∈ steps, s.2 = false) → 0 ≤ b.tokens → b.tokens ≤ B →
      0 ≤ (run_steps I B b steps).tokens ∧ (run_steps I B b steps).tokens ≤ B := by
  intro steps
  induction steps with
  | nil =>
    intro b _ h0 hB
    exact ⟨h0, hB⟩
  | cons s ss ih =>
    intro b hf h0 hB
    have hs2 : s.2 = false := hf s (List.mem_cons_self s ss)
    have hss : ∀ x ∈ ss, x.2 = false := fun x hx => hf x (List.mem_cons_of_mem s hx)
    have hb' := can_send_bounds I B b s.1 h0 hB
    have hrw : run_steps I B b (s :: ss) = run_steps I B (can_send I B b s.1 false).2 ss := by
      simp [run_steps, hs2]
    rw [hrw]
    exact ih _ hss hb'.1 hb'.2

/-- C2 counterexample: starting from the initial state (tokens = burst = 2,
last refill at time 0), three forced _can_send calls at time 0 drive the
token count to -1, contradicting the claim that a forced consume floors
at 0 and that 0 ≤ tokens always holds. -/
theorem c2_counterexample :
    (run_steps 2 2 ⟨2, 0⟩ [((0 : ℚ), true), ((0 : ℚ), true), ((0 : ℚ), true)]).tokens < 0 := by
  have e1 : can_send 2 2 ⟨2, 0⟩ 0 true = (true, ⟨1, 0⟩) := by
    norm_num [can_send, refill_tokens, refill_add, pyInt]
  have e2 : can_send 2 2 ⟨1, 0⟩ 0 true = (true, ⟨0, 0⟩) := by
    norm_num [can_send, refill_tokens, refill_add, pyInt]
  have e3 : can_send 2 2 ⟨0, 0⟩ 0 true = (true, ⟨-1, 0⟩) := by
    norm_num [can_send, refill_tokens, refill_add, pyInt]
  simp [run_steps, e1, e2, e3]

/-- C2 (amended): for every interleaving of refills and non-forced
tryConsume calls the token count stays within 0 and burstCapacity, and a
forced consume always succeeds; but a forced consume decrements the count
unconditionally, so it can leave the bucket negative (the floor-at-0 part
of the claim is false, see the counterexample). -/
theorem c2_token_bucket_invariant (I : ℚ) (B : Int) (b : Bucket)
    (steps : List (ℚ × Bool))
    (hforce : ∀ s ∈ steps, s.2 = false) (h0 : 0 ≤ b.tokens) (hB : b.tokens ≤ B) :
    (0 ≤ (run_steps I B b steps).tokens ∧ (run_steps I B b steps).tokens ≤ B) ∧
    (∀ now, 0 ≤ (refill_tokens I B b now).tokens ∧
      (refill_tokens I B b now).tokens ≤ B) ∧
    (∀ (b2 : Bucket) (now : ℚ), (can_send I B b2 now true).1 = true) :=
  ⟨run_steps_bounds I B steps b hforce h0 hB,
   fun now => ⟨refill_tokens_nonneg I B b now h0, refill_tokens_le_burst I B b now hB⟩,
   fun b2 now => can_send_force_true I B b2 now⟩

/-- Witness for the amended C2 at a concrete one-step non-forced trace. -/
theorem c2_token_bucket_invariant_witness :
    (∀ s ∈ [((0 : ℚ), false)], s.2 = false) ∧ 0 ≤ (2 : Int) ∧ (2 : Int) ≤ 2 ∧
    ((0 ≤ (run_steps 2 2 ⟨2, 0⟩ [((0 : ℚ), false)]).tokens ∧
      (run_steps 2 2 ⟨2, 0⟩ [((0 : ℚ), false)]).tokens ≤ 2) ∧
     (∀ now, 0 ≤ (refill_tokens 2 2 ⟨2, 0⟩ now).tokens ∧
       (refill_tokens 2 2 ⟨2, 0⟩ now).tokens ≤ 2) ∧
     (∀ (b2 : Bucket) (now : ℚ), (can_send 2 2 b2 now true).1 = true)) :=
  ⟨by decide, by decide, by decide,
   c2_token_bucket_invariant 2 2 ⟨2, 0⟩ [((0 : ℚ), false)] (by decide) (by decide) (by decide)⟩

/-- C6: over any sequence of gated tryConsume calls separated by
nonnegative elapsed times, starting from a full bucket, the number of
successes is at most burstCapacity plus the total elapsed time divided by
the refill interval, rounded down. -/
theorem c6_token_bucket_rate (I : ℚ) (B : Int) (t0 : ℚ) (gaps : List ℚ)
    (hI : 0 < I) (hB : 0 ≤ B) (hg : ∀ e ∈ gaps, 0 ≤ e) :
    ((run_gated I B ⟨B, t0⟩ t0 gaps).2.2 : Int) ≤ B + ⌊gaps.sum / I⌋ := by
  have h := run_gated_count_le I B hI gaps ⟨B, t0⟩ t0 hg hB (le_refl B) (le_refl t0)
  have harr : t0 + gaps.sum - t0 = gaps.sum := by ring
  rw [harr] at h
  exact h

/-- Witness for C6 at a concrete two-call trace with gaps 0 and 3 over
interval 2 and burst 2. -/
theorem c6_token_bucket_rate_witness :
    0 < (2 : ℚ) ∧ 0 ≤ (2 : Int) ∧ (∀ e ∈ [(0 : ℚ), 3], 0 ≤ e) ∧
    ((run_gated 2 2 ⟨2, 0⟩ 0 [(0 : ℚ), 3]).2.2 : Int) ≤ 2 + ⌊(([(0 : ℚ), 3]).sum) / 2⌋ :=
  ⟨by decide, by decide, by decide,
   c6_token_bucket_rate 2 2 0 [(0 : ℚ), 3] (by decide) (by decide) (by decide)⟩

/-- C3: with a positive mute delay, a mute while recognition is active
schedules a delayed stop without stopping anything, and an unmute before
the delay fires cancels the pending stop while the session stays active
throughout, with no stop or pause call ever issued; moreover a delayed
stop that does fire re-checks the active flag and does nothing when
recognition is no longer active. -/
theorem c3_mute_debounce (s : CoordState) (h : s.active = true) :
    (handle_mute_change true s true).1.active = true ∧
    (handle_mute_change true s true).1.pending = true ∧
    (handle_mute_change true s true).2 = [] ∧
    (handle_mute_change true (handle_mute_change true s true).1 false).1.active = true ∧
    (handle_mute_change true (handle_mute_change true s true).1 false).1.pending = false ∧
    (handle_mute_change true (handle_mute_change true s true).1 false).2 = [] ∧
    (∀ s2 : CoordState, s2.active = false →
      (delayed_stop_fires s2).2 = [] ∧ (delayed_stop_fires s2).1.active = false) := by
  refine ⟨?_, ?_, ?_, ?_, ?_, ?_, ?_⟩
  · simp [handle_mute_change, h]
  · simp [handle_mute_change, h]
  · simp [handle_mute_change, h]
  · simp [handle_mute_change, h]
  · simp [handle_mute_change, h]
  · simp [handle_mute_change, h]
  · intro s2 h2
    by_cases hp : s2.pending = true
    · simp [delayed_stop_fires, hp, h2]
    · simp [delayed_stop_fires, hp, h2]

/-- Witness for C3 at the concrete state (active, no pending stop). -/
theorem c3_mute_debounce_witness :
    (⟨true, false⟩ : CoordState).active = true ∧
    ((handle_mute_change true ⟨true, false⟩ true).1.active = true ∧
     (handle_mute_change true ⟨true, false⟩ true).1.pending = true ∧
     (handle_mute_change true ⟨true, false⟩ true).2 = [] ∧
     (handle_mute_change true (handle_mute_change true ⟨true, false⟩ true).1 false).1.active = true ∧
     (handle_mute_change true (handle_mute_change true ⟨true, false⟩ true).1 false).1.pending = false ∧
     (handle_mute_change true (handle_mute_change true ⟨true, false⟩ true).1 false).2 = [] ∧
     (∀ s2 : CoordState, s2.active = false →
       (delayed_stop_fires s2).2 = [] ∧ (delayed_stop_fires s2).1.active = false)) :=
  ⟨rfl, c3_mute_debounce ⟨true, false⟩ rfl⟩

/-- C4: an ongoing send_text consults the token bucket and, when the
consume fails, drops the update without putting any message on the wire;
ongoing text is never paginated; a final send_text leaves the whole
OSCManager state (in particular the bucket) untouched and is never
dropped. -/
theorem c4_rate_limit_gating (st : OscState) (now : ℚ) (text : List Char) :
    ((can_send rl_interval rl_burst st.bucket now false).1 = false →
      send_text st now text true
        = (Delivery.dropped,
           { st with bucket := (can_send rl_interval rl_burst st.bucket now false).2 }) ∧
      delivery_messages (send_text st now text true).1 = []) ∧
    (∀ pgs, (send_text st now text true).1 ≠ Delivery.paginated pgs) ∧
    ((send_text st now text false).2 = st) ∧
    ((send_text st now text false).1 ≠ Delivery.dropped) := by
  refine ⟨fun h => ⟨?_, ?_⟩, fun pgs => ?_, ?_, ?_⟩
  · simp [send_text, h]
  · simp [send_text, h, delivery_messages]
  · by_cases h : (can_send rl_interval rl_burst st.bucket now false).1 = false
    · simp [send_text, h]
    · simp [send_text, h, send_text_body]
  · rw [send_text, if_neg (by simp), send_text_body]
    split
    · rfl
    · rfl
  · rw [send_text, if_neg (by simp), send_text_body]
    split
    · simp
    · simp

/-- Witness for C4 at the concrete empty-bucket state at time 0, where
the gated consume fails. -/
theorem c4_rate_limit_gating_witness :
    (can_send rl_interval rl_burst (⟨0, 0⟩ : Bucket) 0 false).1 = false ∧
    send_text ⟨false, ⟨0, 0⟩⟩ 0 ['h', 'i'] true
      = (Delivery.dropped,
         { enable_pagination := false,
           bucket := (can_send rl_interval rl_burst (⟨0, 0⟩ : Bucket) 0 false).2 }) ∧
    delivery_messages (send_text ⟨false, ⟨0, 0⟩⟩ 0 ['h', 'i'] true).1 = [] := by
  have hfail : (can_send rl_interval rl_burst (⟨0, 0⟩ : Bucket) 0 false).1 = false := by
    norm_num [can_send, refill_tokens, refill_add, pyInt, rl_interval, rl_burst]
  have h := (c4_rate_limit_gating ⟨false, ⟨0, 0⟩⟩ 0 ['h', 'i']).1 hfail
  exact ⟨hfail, h.1, h.2⟩

/-- C9: while the Qwen recognizer is paused, send_audio_frame is a no-op
for every frame, even with no open session: it raises nothing, sends
nothing to the backend and leaves the state unchanged; and resume only
clears the paused flag, touching neither the conversation nor the
session and metrics fields and calling nothing on the backend. -/
theorem c9_qwen_pause_semantics (s : QwenState) (data : List Nat)
    (h : s.paused = true) :
    send_audio_frame s data = Except.ok (s, []) ∧
    resume s = ({ s with paused := false }, []) ∧
    (resume s).1.conversation = s.conversation ∧
    (resume s).1.session_id = s.session_id ∧
    (resume s).1.last_response_id = s.last_response_id ∧
    (resume s).1.last_first_text_delay = s.last_first_text_delay ∧
    (resume s).1.last_first_audio_delay = s.last_first_audio_delay ∧
    (resume s).2 = [] := by
  refine ⟨?_, rfl, rfl, rfl, rfl, rfl, rfl, rfl⟩
  by_cases hd : data.isEmpty
  · simp [send_audio_frame, hd]
  · simp [send_audio_frame, hd, h]

/-- Witness for C9 at a paused state with no open conversation and a
nonempty frame. -/
theorem c9_qwen_pause_semantics_witness :
    (⟨true, none, none, none, none, none⟩ : QwenState).paused = true ∧
    send_audio_frame (⟨true, none, none, none, none, none⟩ : QwenState) [1]
      = Except.ok ((⟨true, none, none, none, none, none⟩ : QwenState), []) :=
  ⟨rfl, (c9_qwen_pause_semantics ⟨true, none, none, none, none, none⟩ [1] rfl).1⟩

/-- A nonempty string whose first character differs from a. -/
def head_not (a : Char) : List Char → Bool
  | [] => false
  | c :: _ => !(c == a)

theorem matchesAt_replicate_false (e : List Char) (a : Char)
    (hh : head_not a e = true) (k i : Nat) :
    matchesAt e (List.replicate k a) i = false := by
  cases e with
  | nil => simp [head_not] at hh
  | cons c cs =>
    have hca : (c == a) = false := by simpa [head_not] using hh
    unfold matchesAt
    rw [List.drop_replicate]
    cases hk : k - i with
    | zero => rfl
    | succ m => simp [List.replicate_succ, List.isPrefixOf, hca]

theorem pyRfindGo_none_of_all (needle hay : List Char)
    (h : ∀ i, matchesAt needle hay i = false) :
    ∀ j, pyRfindGo needle hay j = none := by
  intro j
  induction j with
  | zero => simp [pyRfindGo, h 0]
  | succ i ih => simp [pyRfindGo, h (i + 1), ih]

theorem pyRfind_none_of_head_not (e : List Char) (a : Char)
    (hh : head_not a e = true) (k : Nat) :
    pyRfind e (List.replicate k a) = none := by
  unfold pyRfind
  exact pyRfindGo_none_of_all _ _ (matchesAt_replicate_false e a hh k) _

theorem foldl_max_rfind_none (s : List Char) :
    ∀ (L : List (List Char)) (acc : Option Nat),
      (∀ e ∈ L, pyRfind e s = none) →
      L.foldl (max_rfind_step s) acc = acc := by
  intro L
  induction L with
  | nil => intro acc _; rfl
  | cons e L ih =>
    intro acc h
    have he : pyRfind e s = none := h e (List.mem_cons_self e L)
    have hstep : max_rfind_step s acc e = acc := by simp [max_rfind_step, he]
    simp only [List.foldl_cons, hstep]
    exact ih acc (fun x hx => h x (List.mem_cons_of_mem e hx))

theorem best_rfind_replicate_a (k : Nat) :
    best_rfind (List.replicate k 'a') = none := by
  unfold best_rfind
  apply foldl_max_rfind_none
  intro e he
  have hall : SENTENCE_ENDERS.all (head_not 'a') = true := by decide
  exact pyRfind_none_of_head_not e 'a' (List.all_eq_true.mp hall e he) k

theorem space_rfind_replicate_a (k : Nat) :
    pyRfind [' '] (List.replicate k 'a') = none :=
  pyRfind_none_of_head_not [' '] 'a' (by decide) k

theorem split_cut_replicate_a :
    split_cut (List.replicate 144 'a') 144 = 144 := by
  unfold split_cut
  rw [best_rfind_replicate_a, space_rfind_replicate_a]

theorem dropWhile_replicate_self (p : Char → Bool) (a : Char) (hp : p a = false)
    (k : Nat) : List.dropWhile p (List.replicate k a) = List.replicate k a := by
  cases k with
  | zero => rfl
  | succ m => simp [List.replicate_succ, List.dropWhile_cons, hp]

theorem pyLstrip_replicate_a (k : Nat) :
    pyLstrip (List.replicate k 'a') = List.replicate k 'a' :=
  dropWhile_replicate_self isPySpace 'a' (by decide) k

theorem pyStrip_replicate_a (k : Nat) :
    pyStrip (List.replicate k 'a') = List.replicate k 'a' := by
  unfold pyStrip pyLstrip pyRstrip
  rw [dropWhile_replicate_self isPySpace 'a' (by decide) k, List.reverse_replicate,
    dropWhile_replicate_self isPySpace 'a' (by decide) k, List.reverse_replicate]

theorem splitGo_replicate_a :
    ∀ (n f : Nat), 144 * n ≤ f →
      splitGo 144 f (List.replicate (144 * n) 'a')
        = some (List.replicate n (List.replicate 144 'a')) := by
  intro n
  induction n with
  | zero =>
    intro f h
    cases f with
    | zero => simp [splitGo]
    | succ f' => simp [splitGo]
  | succ m ih =>
    intro f h
    obtain ⟨f', rfl⟩ : ∃ f', f = f' + 1 := ⟨f - 1, by omega⟩
    by_cases hm : m = 0
    · subst hm
      have hne : (List.replicate (144 * 1) 'a').isEmpty = false := by
        rw [List.isEmpty_eq_false_iff_exists_mem]
        exact ⟨'a', by simp⟩
      have hle : (List.replicate (144 * 1) 'a').length ≤ 144 := by simp
      simp only [splitGo, hne, Bool.false_eq_true, if_false, hle, if_true]
      rw [Nat.mul_one, List.replicate_one]
    · have hlen : (List.replicate (144 * (m + 1)) 'a').length = 144 * (m + 1) :=
        List.length_replicate _ _
      have hgt : ¬ (List.replicate (144 * (m + 1)) 'a').length ≤ 144 := by
        rw [hlen]; omega
      have hne : (List.replicate (144 * (m + 1)) 'a').isEmpty = false := by
        rw [List.isEmpty_eq_false_iff_exists_mem]
        exact ⟨'a', List.mem_replicate.mpr ⟨by omega, rfl⟩⟩
      have htake : (List.replicate (144 * (m + 1)) 'a').take 144 = List.replicate 144 'a' := by
        rw [List.take_replicate]
        have hmin : min 144 (144 * (m + 1)) = 144 := by omega
        rw [hmin]
      have hcut : split_cut (List.replicate 144 'a') 144 = 144 := split_cut_replicate_a
      have hdrop : (List.replicate (144 * (m + 1)) 'a').drop 144
          = List.replicate (144 * m) 'a' := by
        rw [List.drop_replicate]
        have hsub : 144 * (m + 1) - 144 = 144 * m := by omega
        rw [hsub]
      have hrec := ih f' (by omega)
      simp only [splitGo, hne, Bool.false_eq_true, if_false, hgt, htake, hcut, hdrop,
        pyLstrip_replicate_a, pyStrip_replicate_a, hrec, Option.map_some']
      rw [← List.replicate_succ]

theorem natToDecGo_pow10_len :
    ∀ (k f : Nat), 10 ^ k < f → (natToDecGo f (10 ^ k)).length = k + 1 := by
  intro k
  induction k with
  | zero =>
    intro f h
    obtain ⟨f', rfl⟩ : ∃ f', f = f' + 1 := ⟨f - 1, by omega⟩
    have h1 : (10 : Nat) ^ 0 < 10 := by norm_num
    simp [natToDecGo, h1]
  | succ k ih =>
    intro f h
    have hf : 0 < f := Nat.lt_of_le_of_lt (Nat.zero_le _) h
    obtain ⟨f', rfl⟩ : ∃ f', f = f' + 1 := ⟨f - 1, (Nat.succ_pred_eq_of_pos hf).symm⟩
    have hge : (10 : Nat) ≤ 10 ^ (k + 1) := by
      calc (10 : Nat) = 10 ^ 1 := (pow_one 10).symm
        _ ≤ 10 ^ (k + 1) := Nat.pow_le_pow_right (by norm_num) (by omega)
    have h10 : ¬ (10 ^ (k + 1) < 10) := by omega
    have hdiv : 10 ^ (k + 1) / 10 = 10 ^ k := by
      rw [pow_succ]
      exact Nat.mul_div_cancel _ (by norm_num)
    have hlt : 10 ^ k < 10 ^ (k + 1) :=
      Nat.pow_lt_pow_right (by norm_num) (by omega)
    have hrec := ih f' (by omega)
    simp only [natToDecGo, h10, if_false]
    rw [hdiv]
    rw [List.length_append, hrec]
    simp

/-- The Python decimal string of 1 is "1". -/
theorem natToDec_one : natToDec 1 = ['1'] := by decide

theorem natToDec_pow10_139_len : (natToDec (10 ^ 139)).length = 140 :=
  natToDecGo_pow10_len 139 (10 ^ 139 + 1) (by omega)

/-- The over-long input that breaks the pagination marker bound: the
letter a repeated 144 * 10 ^ 139 times. -/
def big_text : List Char := List.replicate (144 * 10 ^ 139) 'a'

theorem split_big_text :
    split_text_into_pages big_text MAX_LENGTH
      = List.replicate (10 ^ 139) (List.replicate 144 'a') := by
  have hN : 1 < 10 ^ 139 := Nat.one_lt_pow (by norm_num) (by norm_num)
  have hlen : big_text.length = 144 * 10 ^ 139 := List.length_replicate _ _
  have hgt : ¬ big_text.length ≤ MAX_LENGTH := by
    rw [hlen, MAX_LENGTH]
    nlinarith
  rw [split_text_into_pages, if_neg hgt]
  unfold big_text
  rw [List.length_replicate]
  rw [show (MAX_LENGTH : Nat) = 144 from rfl]
  rw [splitGo_replicate_a (10 ^ 139) (144 * 10 ^ 139) le_rfl]
  rfl

theorem page_marker_big_len : (page_marker 1 (10 ^ 139)).length = 145 := by
  rw [page_marker, natToDec_one]
  simp only [List.length_cons, List.length_append, natToDec_pow10_139_len,
    List.length_singleton]
  rfl

theorem c1_first_message_len :
    (page_with_marker (List.replicate 144 'a') 1 (10 ^ 139)).length = 288 := by
  have hm : (page_marker 1 (10 ^ 139)).length = 145 := page_marker_big_len
  have hpm : (page_marker 1 (10 ^ 139) ++ List.replicate 144 'a').length = 289 := by
    rw [List.length_append, hm, List.length_replicate]
  have hslice : pySliceTo (List.replicate 144 'a')
      ((MAX_LENGTH : Int) - ((page_marker 1 (10 ^ 139)).length : Int))
        = (List.replicate 144 'a').take 143 := by
    rw [hm]
    rw [pySliceTo, if_pos (by norm_num [MAX_LENGTH])]
    norm_num [MAX_LENGTH]
  simp only [page_with_marker]
  rw [if_pos (by rw [hpm]; norm_num [MAX_LENGTH])]
  rw [List.length_append, hslice, hm, List.length_take, List.length_replicate]
  norm_num

/-- C1 fails on the code: on the concrete input big_text (the letter a
repeated 144 * 10 ^ 139 times) the pagination produces 10 ^ 139 pages, so
the first page marker "[1/10^139] " alone is 145 characters long; the
marker-truncation step then computes a negative available length, whose
Python slice keeps all but the last character of the page body, and the
resulting wire message is 288 characters, exceeding MAX_LENGTH = 144. -/
theorem c1_marker_overflow :
    ∃ m, m ∈ send_paginated_text big_text ∧ MAX_LENGTH < m.length := by
  have hN : 0 < 10 ^ 139 := by positivity
  obtain ⟨M, hM⟩ : ∃ M, 10 ^ 139 = M + 1 :=
    ⟨10 ^ 139 - 1, (Nat.succ_pred_eq_of_pos hN).symm⟩
  refine ⟨page_with_marker (List.replicate 144 'a') 1 (10 ^ 139), ?_, ?_⟩
  · rw [send_paginated_text]
    simp only [split_big_text, List.length_replicate]
    rw [hM, List.replicate_succ, withMarkersGo]
    exact List.mem_cons_self _ _
  · rw [c1_first_message_len]
    norm_num [MAX_LENGTH]

/-- Complementary bound: whenever the page marker itself fits within
MAX_LENGTH (every realistic page count), the marker-truncation step does
keep the wire message within MAX_LENGTH, which is the behaviour the spec
describes. -/
theorem page_with_marker_le_of_marker_le (page : List Char) (i total : Nat)
    (h : (page_marker i total).length ≤ MAX_LENGTH) :
    (page_with_marker page i total).length ≤ MAX_LENGTH := by
  simp only [page_with_marker]
  by_cases hc : MAX_LENGTH < (page_marker i total ++ page).length
  · rw [if_pos hc, List.length_append]
    have harg : (0 : Int) ≤ (MAX_LENGTH : Int) - ((page_marker i total).length : Int) := by
      omega
    rw [pySliceTo, if_neg (not_lt.mpr harg)]
    have haux : ((MAX_LENGTH : Int) - ((page_marker i total).length : Int)).toNat
        = MAX_LENGTH - (page_marker i total).length := by omega
    rw [haux]
    have htl := List.length_take_le (MAX_LENGTH - (page_marker i total).length) page
    omega
  · rw [if_neg hc]
    exact not_lt.mp hc
